import Mathlib

/-!
Verification development for the markdown-test compiler
(`parseMarkdownTests`, `stringifyOperations`, `build` of the `dance`
test-suite generator).

Modelling conventions:
* Text is modelled as `List Char`; a file is a `List (List Char)` of its
  lines, where the original contents are the lines each terminated by a
  newline character.  All regular-expression scanning in the source is
  line-anchored (`m` flag), so the line list is a faithful carrier.
* JavaScript `RegExp` scanning with `g`/`m` and lazy quantifiers is
  embedded as an explicit left-to-right scanner (`scan`), translated
  match-shape by match-shape from the source pattern
  `^# (.+)\n(?:\[.+?\]\(#(.+?)\)\n)?([\s\S]+?)^(fence)\n([\s\S]+?)^(fence)\n`.
* Thrown `assert`/`Error` exceptions become `Except BuildError`.
-/

set_option autoImplicit false

namespace Dance

abbrev Str := List Char

/-- JavaScript `\s` character class (the whitespace set of `RegExp`). -/
def jsWs (c : Char) : Bool :=
  c = ' ' || c = '\t' || c = '\n' || c = '\r' ||
  c = Char.ofNat 11 || c = Char.ofNat 12 || c = Char.ofNat 0xa0 ||
  c = Char.ofNat 0x1680 ||
  (Char.ofNat 0x2000 ≤ c && c ≤ Char.ofNat 0x200a) ||
  c = Char.ofNat 0x2028 || c = Char.ofNat 0x2029 || c = Char.ofNat 0x202f ||
  c = Char.ofNat 0x205f || c = Char.ofNat 0x3000 || c = Char.ofNat 0xfeff

/-- `badTitle.replace(/\s/g, "-")` from the source: every whitespace
character of the header text becomes a hyphen. -/
def deriveTitle (s : Str) : Str :=
  s.map (fun c => if jsWs c then '-' else c)

/-- Whether `pat` occurs at the start of `s`. -/
def leadsWith : Str → Str → Bool
  | [], _ => true
  | _ :: _, [] => false
  | a :: as, b :: bs => a = b && leadsWith as bs

/-- Split a line list at the first fenced-block delimiter line
(a line that is exactly three backticks, matching the source's
line-anchored fence pattern). -/
def splitFirstFence : List Str → Option (List Str × List Str)
  | [] => none
  | l :: ls =>
    if l = ("```".data) then some ([], ls)
    else
      match splitFirstFence ls with
      | some (a, b) => some (l :: a, b)
      | none => none

/-- First occurrence of the `](#` marker inside a line, splitting the
line into the part before the marker and the part after it. -/
def findMark : Str → Option (Str × Str)
  | [] => none
  | c :: cs =>
    if leadsWith ("](#".data) (c :: cs) then some ([], (c :: cs).drop 3)
    else
      match findMark cs with
      | some (a, b) => some (c :: a, b)
      | none => none

/-- The optional reference line `[.+?](#(.+?))` of the source pattern:
a line of shape `[<one or more chars>](#<capture>)`, returning the
captured `comesAfter` text.  The lazy quantifiers make the match pick
the first `](#` marker preceded by at least one character, and the
closing parenthesis matched by the pattern is the one at the end of the
line (the only one followed by a newline). -/
def parseLink (l : Str) : Option Str :=
  match l with
  | '[' :: body =>
    match body with
    | [] => none
    | _ :: cs =>
      match findMark cs with
      | none => none
      | some (_, afterMark) =>
        if afterMark.getLast? = some ')' && 2 ≤ afterMark.length then
          some afterMark.dropLast
        else none
  | _ => none

/-- One raw match of the entry pattern: header text, optional reference
capture, body lines (`operationsText`) and fenced content lines. -/
structure RawEntry where
  badTitle : Str
  comesAfter : Option Str
  bodyLines : List Str
  codeLines : List Str
deriving DecidableEq

/-- Match the body-and-two-fences tail of the entry pattern starting at a
given line.  The body capture is lazy but must be nonempty, so when the
very first line is already a fence it is swallowed into the body and the
next fence is used; likewise for the content capture. -/
def tryBody : List Str → Option (List Str × List Str × List Str)
  | [] => none
  | x :: ys =>
    match splitFirstFence ys with
    | none => none
    | some (a, rest1) =>
      match rest1 with
      | [] => none
      | z :: zs =>
        match splitFirstFence zs with
        | none => none
        | some (c, rest2) => some (x :: a, z :: c, rest2)

/-- Try to complete an entry match whose header line produced `title`.
The optional reference line is tried first; if the rest of the pattern
cannot complete with it, the regular-expression engine backtracks and the
reference line becomes the first body line. -/
def tryEntry (title : Str) (rest : List Str) : Option (RawEntry × List Str) :=
  match rest with
  | [] => none
  | r :: rs =>
    match parseLink r with
    | some ca =>
      match tryBody rs with
      | some (b, cd, rest') =>
        some ({ badTitle := title, comesAfter := some ca,
                bodyLines := b, codeLines := cd }, rest')
      | none =>
        match tryBody (r :: rs) with
        | some (b, cd, rest') =>
          some ({ badTitle := title, comesAfter := none,
                  bodyLines := b, codeLines := cd }, rest')
        | none => none
    | none =>
      match tryBody (r :: rs) with
      | some (b, cd, rest') =>
        some ({ badTitle := title, comesAfter := none,
                bodyLines := b, codeLines := cd }, rest')
      | none => none

/-- `execAll(re, contents)`: repeatedly find the leftmost entry match at
or after the current position.  A header line whose entry cannot be
completed is skipped and scanning resumes at the next line.  The fuel
argument only bounds the recursion; every step consumes at least one
line, so `ls.length` fuel is always sufficient. -/
def scanAux : Nat → List Str → List RawEntry
  | 0, _ => []
  | _, [] => []
  | fuel + 1, l :: rest =>
    if leadsWith ("# ".data) l && !(l.drop 2).isEmpty then
      match tryEntry (l.drop 2) rest with
      | some (e, rest') => e :: scanAux fuel rest'
      | none => scanAux fuel rest
    else scanAux fuel rest

def scan (ls : List Str) : List RawEntry := scanAux ls.length ls

/-- `execAll(/^# /gm, contents).length`: the number of lines beginning
with `# `. -/
def countHeaders (ls : List Str) : Nat :=
  (ls.filter (fun l => leadsWith ("# ".data) l)).length

structure TestOperation where
  command : Str
  args : Option Str
deriving DecidableEq

def isWordChar (c : Char) : Bool := c.isAlphanum || c = '_'

def isOpCmdChar (c : Char) : Bool := isWordChar c || c = '.' || c = ':'

/-- The first alternative `^- *([\w.:]+)( +.+)?$` of the operation
pattern, applied to one body line. -/
def parseOpLine (l : Str) : Option TestOperation :=
  match l with
  | '-' :: r =>
    let r1 := r.dropWhile (fun c => c = ' ')
    let cmd := r1.takeWhile isOpCmdChar
    let rest := r1.drop cmd.length
    if cmd.isEmpty then none
    else
      match rest with
      | [] => some { command := cmd, args := none }
      | c :: _ =>
        if c = ' ' then
          if rest.all (fun c => c = ' ') then
            if 2 ≤ rest.length then some { command := cmd, args := some rest }
            else none
          else some { command := cmd, args := some rest }
        else none
  | _ => none

/-- The second alternative `^> *(.+)$` of the operation pattern (also
the whole flag pattern used for initial-state bodies). -/
def parseFlagLine (l : Str) : Option Str :=
  match l with
  | '>' :: r =>
    if r.isEmpty then none
    else
      let s := r.dropWhile (fun c => c = ' ')
      if s.isEmpty then some [' '] else some s
  | _ => none

/-- The loop over `execAll(opre, operationsText)`: operation lines and
flag lines collected in order. -/
def collectOps : List Str → List TestOperation × List Str
  | [] => ([], [])
  | l :: ls =>
    let (ops, fls) := collectOps ls
    match parseOpLine l with
    | some op => (op :: ops, fls)
    | none =>
      match parseFlagLine l with
      | some f => (ops, f :: fls)
      | none => (ops, fls)

structure InitialDocument where
  title : Str
  flags : List Str
  codeLines : List Str
deriving DecidableEq

structure Test where
  title : Str
  comesAfter : Str
  operations : List TestOperation
  flags : List Str
  codeLines : List Str
deriving DecidableEq

/-- The main parse loop body: each raw match becomes an initial document
(no reference capture) or a test (reference capture present), with the
title derived from the header text. -/
def splitEntries : List RawEntry → List InitialDocument × List Test
  | [] => ([], [])
  | e :: ms =>
    let (ini, ts) := splitEntries ms
    match e.comesAfter with
    | none =>
      ({ title := deriveTitle e.badTitle,
         flags := e.bodyLines.filterMap parseFlagLine,
         codeLines := e.codeLines } :: ini, ts)
    | some ca =>
      let (ops, fls) := collectOps e.bodyLines
      (ini, { title := deriveTitle e.badTitle, comesAfter := ca,
              operations := ops, flags := fls,
              codeLines := e.codeLines } :: ts)

inductive BuildError where
  | notAllParsed (headers parsed : Nat)
  | duplicateInitial (title : Str)
  | unknownDependency (title comesAfter : Str)
  | unrecognizedFlag (flag : Str)
deriving DecidableEq

deriving instance DecidableEq for Except

/-- The first validation loop: every initial document's title must not
already be known; known titles accumulate. -/
def checkInitials : List Str → List InitialDocument → Except BuildError (List Str)
  | known, [] => .ok known
  | known, d :: ds =>
    if d.title ∈ known then .error (.duplicateInitial d.title)
    else checkInitials (d.title :: known) ds

/-- The second validation loop: every test's `comesAfter` must already be
known; each test's own title then becomes known. -/
def checkTests : List Str → List Test → Except BuildError Unit
  | _, [] => .ok ()
  | known, t :: ts =>
    if t.comesAfter ∈ known then checkTests (t.title :: known) ts
    else .error (.unknownDependency t.title t.comesAfter)

/-- `parseMarkdownTests`: scan all entries, check the header count
against the number of parsed entries, then validate titles and
dependencies. -/
def parseMarkdownTests (ls : List Str) :
    Except BuildError (List InitialDocument × List Test) :=
  let pr := splitEntries (scan ls)
  if countHeaders ls ≠ pr.2.length + pr.1.length then
    .error (.notAllParsed (countHeaders ls) (pr.2.length + pr.1.length))
  else
    match checkInitials [] pr.1 with
    | .error e => .error e
    | .ok known =>
      match checkTests known pr.2 with
      | .error e => .error e
      | .ok _ => .ok pr

/-- A member of a concurrently-scheduled `Promise.all` group in the
generated code. -/
inductive GroupMember where
  | invokeCmd (command : Str) (args : Option Str)
  | typeChar (text : Option Char) (delayMs : Nat)
deriving DecidableEq

/-- One step of the generated test body produced by
`stringifyOperations`. -/
inductive Step where
  | configureBehavior (mode : Str) (value : Str)
  | awaitSingle (command : Str) (args : Option Str)
  | awaitAll (members : List GroupMember)
deriving DecidableEq

/-- The flag pattern `^(\w+)\.(behavior) <- (caret|character)$`. -/
def parseBehaviorFlag (f : Str) : Option (Str × Str) :=
  let scope := f.takeWhile isWordChar
  let rest := f.drop scope.length
  if scope.isEmpty then none
  else if rest = ('.' :: ("behavior <- caret".data)) then
    some (scope, ("caret".data))
  else if rest = ('.' :: ("behavior <- character".data)) then
    some (scope, ("character".data))
  else none

/-- The flag loop of `stringifyOperations`: each matching flag becomes a
`setSelectionBehavior` step; the first non-matching flag throws. -/
def stringifyFlags : List Str → Except BuildError (List Step)
  | [] => .ok []
  | f :: fs =>
    match parseBehaviorFlag f with
    | some (m, v) =>
      match stringifyFlags fs with
      | .ok rest => .ok (.configureBehavior m v :: rest)
      | .error e => .error e
    | none => .error (.unrecognizedFlag f)

/-- `if (command[0] === ".") command = "dance" + command`. -/
def rewriteCommand (c : Str) : Str :=
  match c with
  | '.' :: _ => ("dance".data) ++ c
  | _ => c

/-- Whether an operation's command starts with `type:`. -/
def isTypeOp (o : TestOperation) : Bool := leadsWith ("type:".data) o.command

/-- The group currently being assembled by the operation loop: the
invoking command (already rewritten) and the characters of the merged
`type:` operations. -/
structure OpGroup where
  command : Str
  args : Option Str
  typedTexts : List (Option Char)
deriving DecidableEq

def mkGroup (op : TestOperation) : OpGroup :=
  { command := rewriteCommand op.command, args := op.args, typedTexts := [] }

/-- The typed sub-actions of a group: the `k`-th pushed promise is
scheduled at `promises.length * 20` milliseconds, where `promises`
already holds the invoking command and the earlier typed actions. -/
def typedMembers (idx : Nat) : List (Option Char) → List GroupMember
  | [] => []
  | t :: rest => .typeChar t (idx * 20) :: typedMembers (idx + 1) rest

/-- Emit the assembled group: a single-promise group is awaited
individually, a multi-promise group through `Promise.all`. -/
def closeGroup (g : OpGroup) : Step :=
  match g.typedTexts with
  | [] => .awaitSingle g.command g.args
  | _ :: _ =>
    .awaitAll (.invokeCmd g.command g.args :: typedMembers 1 g.typedTexts)

/-- The operation loop with its inner `while`: a `type:` operation joins
the current group (contributing `command[5]` as its text); any other
operation closes the current group and starts a new one. -/
def groupOpsAux (g : OpGroup) : List TestOperation → List Step
  | [] => [closeGroup g]
  | op :: rest =>
    if isTypeOp op then
      groupOpsAux { g with typedTexts := g.typedTexts ++ [op.command.get? 5] } rest
    else
      closeGroup g :: groupOpsAux (mkGroup op) rest

def groupOps : List TestOperation → List Step
  | [] => []
  | op :: rest => groupOpsAux (mkGroup op) rest

/-- `stringifyOperations`: the flag steps followed by the grouped
operation steps. -/
def stringifyOperations (t : Test) : Except BuildError (List Step) :=
  match stringifyFlags t.flags with
  | .ok cfg => .ok (cfg ++ groupOps t.operations)
  | .error e => .error e

/-- One generated `test("transition A > B", ...)` of the emitted
suite. -/
structure GeneratedTest where
  title : Str
  comesAfter : Str
  steps : List Step
  codeLines : List Str
deriving DecidableEq

/-- The emitted suite for one input file: the immediately resolved
promise-table entries (one per initial document), the unresolved
placeholders with their resolvers keyed by title (one per test), and the
generated tests. -/
structure Suite where
  resolvedDocs : List (Str × List Str)
  placeholders : List Str
  genTests : List GeneratedTest
deriving DecidableEq

def buildTests : List Test → Except BuildError (List GeneratedTest)
  | [] => .ok []
  | t :: ts =>
    match stringifyOperations t with
    | .error e => .error e
    | .ok steps =>
      match buildTests ts with
      | .error e => .error e
      | .ok rest =>
        .ok ({ title := t.title, comesAfter := t.comesAfter,
               steps := steps, codeLines := t.codeLines } :: rest)

/-- The code generation of `build` for one parsed file. -/
def buildSuite (ini : List InitialDocument) (ts : List Test) :
    Except BuildError Suite :=
  match buildTests ts with
  | .error e => .error e
  | .ok gts =>
    .ok { resolvedDocs := ini.map (fun d => (d.title, d.codeLines)),
          placeholders := ts.map (fun t => t.title),
          genTests := gts }

/-- `build` for one file: parse, then generate; any thrown error aborts
before the output file is written. -/
def buildFile (ls : List Str) : Except BuildError Suite :=
  match parseMarkdownTests ls with
  | .error e => .error e
  | .ok (ini, ts) => buildSuite ini ts

/-! ### Runtime model of the generated suite

The generated suite keeps a `documents` table mapping titles to promises
(object-literal construction: a later entry with the same key overrides
an earlier one) and a `notifyDependents` table mapping titles to the
resolver of the corresponding placeholder (later assignment overrides).
A promise settles at most once.  Each generated test awaits its
predecessor's entry, skips when it holds `undefined`, otherwise runs its
body (abstracted by an oracle saying whether applying the state, the
steps and the final assertion succeed), and in all cases resolves the
placeholder registered under its own title. -/

/-- A `documents` table entry: an immediately resolved document promise
(for an initial document) or the placeholder promise of the test with
the given index. -/
inductive DocEntry where
  | resolvedDoc (codeLines : List Str)
  | placeholder (idx : Nat)
deriving DecidableEq

/-- Lookup in an object built from a key-value list: the last binding of
a key wins. -/
def lookupLast {α : Type} : List (Str × α) → Str → Option α
  | [], _ => none
  | (k, v) :: rest, key =>
    match lookupLast rest key with
    | some r => some r
    | none => if k = key then some v else none

/-- The resolver registered under a title: the placeholder index of the
last generated test with that title. -/
def lastIndexOf : List GeneratedTest → Str → Option Nat
  | [], _ => none
  | g :: rest, title =>
    match lastIndexOf rest title with
    | some i => some (i + 1)
    | none => if g.title = title then some 0 else none

def mkPlaceholders (idx : Nat) : List GeneratedTest → List (Str × DocEntry)
  | [] => []
  | g :: rest => (g.title, .placeholder idx) :: mkPlaceholders (idx + 1) rest

/-- The `documents` table of the emitted suite. -/
def mkTable (s : Suite) : List (Str × DocEntry) :=
  (s.resolvedDocs.map (fun p => (p.1, DocEntry.resolvedDoc p.2)))
    ++ mkPlaceholders 0 s.genTests

/-- The placeholder store: one cell per generated test; `none` while
pending, `some v` once settled with `v` (`none` inside standing for a
promise resolved to `undefined`). -/
abbrev Store := List (Option (Option (List Str)))

/-- `notifyDependents[title](v)`: resolve the placeholder registered
under `title`; resolving an already settled promise is a no-op. -/
def notify (gts : List GeneratedTest) (store : Store) (title : Str)
    (v : Option (List Str)) : Store :=
  match lastIndexOf gts title with
  | none => store
  | some i =>
    match store.get? i with
    | some none => store.set i (some v)
    | _ => store

/-- `await documents[name]`: `none` when the awaited promise is still
pending (the test would hang), `some v` when it settles with `v`; a
missing key reads as `undefined`. -/
def awaitEntry (table : List (Str × DocEntry)) (store : Store)
    (name : Str) : Option (Option (List Str)) :=
  match lookupLast table name with
  | none => some none
  | some (.resolvedDoc d) => some (some d)
  | some (.placeholder i) =>
    match store.get? i with
    | some (some v) => some v
    | _ => none

inductive TestResult where
  | passed
  | failed
  | skipped
  | hung
deriving DecidableEq

/-- Run the generated tests in declaration order.  `oracle i` tells
whether the body of the `i`-th test (applying the predecessor state,
executing the steps, and the final assertion) succeeds. -/
def runTestsAux (table : List (Str × DocEntry)) (gts : List GeneratedTest)
    (oracle : Nat → Bool) : Nat → Store → List GeneratedTest → List TestResult
  | _, _, [] => []
  | idx, store, t :: rest =>
    match awaitEntry table store t.comesAfter with
    | none => .hung :: runTestsAux table gts oracle (idx + 1) store rest
    | some none =>
      .skipped :: runTestsAux table gts oracle (idx + 1)
        (notify gts store t.title none) rest
    | some (some _) =>
      if oracle idx then
        .passed :: runTestsAux table gts oracle (idx + 1)
          (notify gts store t.title (some t.codeLines)) rest
      else
        .failed :: runTestsAux table gts oracle (idx + 1)
          (notify gts store t.title none) rest

def runSuite (s : Suite) (oracle : Nat → Bool) : List TestResult :=
  runTestsAux (mkTable s) s.genTests oracle 0
    (List.replicate s.genTests.length none) s.genTests

/-- The parsed initial documents of a file (the `setups` list). -/
def parsedSetups (ls : List Str) : List InitialDocument :=
  (splitEntries (scan ls)).1

/-- The parsed transitions of a file (the `tests` list). -/
def parsedTests (ls : List Str) : List Test :=
  (splitEntries (scan ls)).2

/-- The titles of the parsed initial documents. -/
def setupTitles (ls : List Str) : List Str :=
  (parsedSetups ls).map (fun d => d.title)

/-- The suite generated for a file, defaulting to the empty suite when
compilation aborts with an error. -/
def builtSuite (ls : List Str) : Suite :=
  match buildFile ls with
  | .ok s => s
  | .error _ => { resolvedDocs := [], placeholders := [], genTests := [] }

/-- The set of known titles after processing a prefix of the test list,
starting from the titles accumulated so far. -/
def knownAfter (known : List Str) (pre : List Test) : List Str :=
  pre.foldl (fun acc t => t.title :: acc) known

/-! ### Helper lemmas -/

theorem get?_set_self {α : Type} (l : List α) (i : Nat) (v : α)
    (h : i < l.length) : (l.set i v).get? i = some v := by
  induction l generalizing i with
  | nil => simp at h
  | cons a as ih =>
    cases i with
    | zero => simp [List.set]
    | succ n => simpa [List.set] using ih n (by simpa using h)

theorem get?_set_ne {α : Type} (l : List α) (i j : Nat) (v : α)
    (h : i ≠ j) : (l.set i v).get? j = l.get? j := by
  induction l generalizing i j with
  | nil => simp [List.set]
  | cons a as ih =>
    cases i with
    | zero =>
      cases j with
      | zero => exact absurd rfl h
      | succ m => simp [List.set]
    | succ n =>
      cases j with
      | zero => simp [List.set]
      | succ m => simpa [List.set] using ih n m (by omega)

theorem get?_replicate {α : Type} (a : α) (n i : Nat) (h : i < n) :
    (List.replicate n a).get? i = some a := by
  induction n generalizing i with
  | zero => omega
  | succ m ih =>
    cases i with
    | zero => simp [List.replicate]
    | succ k => simpa [List.replicate] using ih k (by omega)

theorem mem_map_take {α β : Type} (f : α → β) (l : List α) (j : Nat) (x : β)
    (h : x ∈ (l.take j).map f) :
    ∃ i u, i < j ∧ l.get? i = some u ∧ f u = x := by
  induction l generalizing j with
  | nil => simp at h
  | cons a as ih =>
    cases j with
    | zero => simp at h
    | succ m =>
      simp only [List.take, List.map, List.mem_cons] at h
      rcases h with h | h
      · exact ⟨0, a, by omega, rfl, h.symm⟩
      · rcases ih m h with ⟨i, u, hi, hg, hf⟩
        exact ⟨i + 1, u, by omega, hg, hf⟩

theorem splitEntries_length (ms : List RawEntry) :
    (splitEntries ms).1.length + (splitEntries ms).2.length = ms.length := by
  induction ms with
  | nil => simp [splitEntries]
  | cons e rest ih =>
    simp only [splitEntries]
    cases h : e.comesAfter <;> simp_all <;> omega

theorem knownAfter_nil (k : List Str) : knownAfter k [] = k := rfl

theorem knownAfter_cons (k : List Str) (t : Test) (ts : List Test) :
    knownAfter k (t :: ts) = knownAfter (t.title :: k) ts := rfl

theorem mem_knownAfter (x : Str) (k : List Str) (pre : List Test) :
    x ∈ knownAfter k pre ↔ x ∈ k ∨ x ∈ pre.map (fun t => t.title) := by
  induction pre generalizing k with
  | nil => simp [knownAfter]
  | cons t ts ih =>
    rw [knownAfter_cons, ih]
    simp only [List.mem_cons, List.map, List.mem_cons]
    tauto

theorem checkInitials_ok_of_nodup (ini : List InitialDocument) (k : List Str)
    (hk : ∀ d ∈ ini, d.title ∉ k)
    (hnd : (ini.map (fun d => d.title)).Nodup) :
    ∃ r, checkInitials k ini = .ok r ∧
      ∀ x, x ∈ r ↔ (x ∈ k ∨ x ∈ ini.map (fun d => d.title)) := by
  induction ini generalizing k with
  | nil => exact ⟨k, rfl, by simp⟩
  | cons d ds ih =>
    have hdk : d.title ∉ k := hk d (by simp)
    simp only [List.map, List.nodup_cons] at hnd
    rcases ih (d.title :: k)
        (by
          intro d' hd'
          simp only [List.mem_cons]
          push_neg
          refine ⟨?_, hk d' (by simp [hd'])⟩
          intro hEq
          exact hnd.1 (hEq ▸ List.mem_map_of_mem (fun d => d.title) hd'))
        hnd.2 with ⟨r, hr, hmem⟩
    refine ⟨r, ?_, ?_⟩
    · simp [checkInitials, hdk, hr]
    · intro x
      rw [hmem x]
      simp only [List.mem_cons, List.map, List.mem_cons]
      tauto

theorem checkInitials_error_of_dup (ini : List InitialDocument) (k : List Str)
    (h : ¬ (ini.map (fun d => d.title)).Nodup ∨ ∃ d ∈ ini, d.title ∈ k) :
    ∃ ttl, checkInitials k ini = .error (.duplicateInitial ttl) := by
  induction ini generalizing k with
  | nil =>
    rcases h with h | ⟨d, hd, _⟩
    · simp at h
    · simp at hd
  | cons d ds ih =>
    by_cases hdk : d.title ∈ k
    · exact ⟨d.title, by simp [checkInitials, hdk]⟩
    · have step : checkInitials k (d :: ds) = checkInitials (d.title :: k) ds := by
        simp [checkInitials, hdk]
      rw [step]
      apply ih
      rcases h with h | ⟨d', hd', hk'⟩
      · simp only [List.map, List.nodup_cons] at h
        push_neg at h
        by_cases hmem : d.title ∈ ds.map (fun d => d.title)
        · rcases List.mem_map.mp hmem with ⟨d'', hd'', ht⟩
          exact Or.inr ⟨d'', hd'', by simp [ht]⟩
        · exact Or.inl (fun hnd => (h hmem) hnd)
      · rcases List.mem_cons.mp hd' with rfl | hd''
        · exact absurd hk' hdk
        · exact Or.inr ⟨d', hd'', by simp [hk']⟩

theorem checkTests_ok_deps (ts : List Test) (k : List Str)
    (h : checkTests k ts = .ok ()) :
    ∀ i u, ts.get? i = some u → u.comesAfter ∈ knownAfter k (ts.take i) := by
  induction ts generalizing k with
  | nil => intro i u hu; simp at hu
  | cons t rest ih =>
    intro i u hu
    by_cases hmem : t.comesAfter ∈ k
    · have step : checkTests k (t :: rest) = checkTests (t.title :: k) rest := by
        simp [checkTests, hmem]
      rw [step] at h
      cases i with
      | zero =>
        simp only [List.get?] at hu
        cases hu
        simpa [knownAfter] using hmem
      | succ n =>
        simp only [List.get?] at hu
        have := ih (t.title :: k) h n u hu
        simpa [List.take, knownAfter_cons] using this
    · simp [checkTests, hmem] at h

theorem checkTests_ok_of_deps (ts : List Test) (k : List Str)
    (h : ∀ i u, ts.get? i = some u → u.comesAfter ∈ knownAfter k (ts.take i)) :
    checkTests k ts = .ok () := by
  induction ts generalizing k with
  | nil => rfl
  | cons t rest ih =>
    have h0 : t.comesAfter ∈ k := by
      have := h 0 t rfl
      simpa [knownAfter] using this
    have step : checkTests k (t :: rest) = checkTests (t.title :: k) rest := by
      simp [checkTests, h0]
    rw [step]
    apply ih
    intro i u hu
    have := h (i + 1) u (by simpa [List.get?] using hu)
    simpa [List.take, knownAfter_cons] using this

theorem checkTests_error_at (pre : List Test) (t : Test) (suf : List Test)
    (k : List Str)
    (hpre : ∀ i u, pre.get? i = some u →
      u.comesAfter ∈ knownAfter k (pre.take i))
    (hbad : t.comesAfter ∉ knownAfter k pre) :
    checkTests k (pre ++ t :: suf) = .error (.unknownDependency t.title t.comesAfter) := by
  induction pre generalizing k with
  | nil =>
    have : t.comesAfter ∉ k := by simpa [knownAfter] using hbad
    simp [checkTests, this]
  | cons p rest ih =>
    have h0 : p.comesAfter ∈ k := by
      have := hpre 0 p rfl
      simpa [knownAfter] using this
    have step : checkTests k ((p :: rest) ++ t :: suf)
        = checkTests (p.title :: k) (rest ++ t :: suf) := by
      simp [checkTests, h0]
    rw [step]
    apply ih
    · intro i u hu
      have := hpre (i + 1) u (by simpa [List.get?] using hu)
      simpa [List.take, knownAfter_cons] using this
    · simpa [knownAfter_cons] using hbad

theorem stringifyFlags_ok_of_all (fs : List Str)
    (h : ∀ f ∈ fs, (parseBehaviorFlag f).isSome) :
    ∃ cfg, stringifyFlags fs = .ok cfg ∧ cfg.length = fs.length ∧
      ∀ i f, fs.get? i = some f →
        ∃ m v, parseBehaviorFlag f = some (m, v) ∧
          cfg.get? i = some (.configureBehavior m v) := by
  induction fs with
  | nil => exact ⟨[], rfl, rfl, by intro i f hf; simp at hf⟩
  | cons f fs ih =>
    have hf : (parseBehaviorFlag f).isSome := h f (by simp)
    rcases Option.isSome_iff_exists.mp hf with ⟨⟨m, v⟩, hmv⟩
    rcases ih (fun g hg => h g (by simp [hg])) with ⟨cfg, hcfg, hlen, hpt⟩
    refine ⟨.configureBehavior m v :: cfg, ?_, by simp [hlen], ?_⟩
    · simp [stringifyFlags, hmv, hcfg]
    · intro i g hg
      cases i with
      | zero =>
        simp only [List.get?] at hg
        cases hg
        exact ⟨m, v, hmv, rfl⟩
      | succ n =>
        simp only [List.get?] at hg ⊢
        exact hpt n g hg

theorem stringifyFlags_error_at (pre : List Str) (f : Str) (suf : List Str)
    (hpre : ∀ g ∈ pre, (parseBehaviorFlag g).isSome)
    (hf : parseBehaviorFlag f = none) :
    stringifyFlags (pre ++ f :: suf) = .error (.unrecognizedFlag f) := by
  induction pre with
  | nil => simp [stringifyFlags, hf]
  | cons p rest ih =>
    rcases Option.isSome_iff_exists.mp (hpre p (by simp)) with ⟨⟨m, v⟩, hmv⟩
    have := ih (fun g hg => hpre g (by simp [hg]))
    simp [stringifyFlags, hmv, this]

theorem stringifyFlags_ok_shape (fs : List Str) (cfg : List Step)
    (h : stringifyFlags fs = .ok cfg) :
    cfg.length = fs.length ∧ ∀ s ∈ cfg, ∃ m v, s = .configureBehavior m v := by
  induction fs generalizing cfg with
  | nil =>
    simp only [stringifyFlags] at h
    cases h
    simp
  | cons f rest ih =>
    simp only [stringifyFlags] at h
    cases hmv : parseBehaviorFlag f with
    | none => rw [hmv] at h; cases h
    | some mv =>
      rw [hmv] at h
      cases hrest : stringifyFlags rest with
      | error e => rw [hrest] at h; cases h
      | ok cfg' =>
        rw [hrest] at h
        cases h
        rcases ih cfg' hrest with ⟨hlen, hsh⟩
        refine ⟨by simp [hlen], ?_⟩
        intro s hs
        rcases List.mem_cons.mp hs with rfl | hs'
        · exact ⟨mv.1, mv.2, rfl⟩
        · exact hsh s hs'

theorem groupOpsAux_no_config (g : OpGroup) (ops : List TestOperation) :
    ∀ s ∈ groupOpsAux g ops, ∀ m v, s ≠ .configureBehavior m v := by
  induction ops generalizing g with
  | nil =>
    intro s hs m v
    simp only [groupOpsAux, List.mem_singleton] at hs
    subst hs
    cases h : g.typedTexts <;> simp [closeGroup, h]
  | cons op rest ih =>
    intro s hs m v
    simp only [groupOpsAux] at hs
    by_cases hty : isTypeOp op
    · rw [if_pos hty] at hs
      exact ih _ s hs m v
    · rw [if_neg hty] at hs
      rcases List.mem_cons.mp hs with rfl | hs'
      · cases h : g.typedTexts <;> simp [closeGroup, h]
      · exact ih _ s hs' m v

theorem groupOps_no_config (ops : List TestOperation) :
    ∀ s ∈ groupOps ops, ∀ m v, s ≠ .configureBehavior m v := by
  cases ops with
  | nil => intro s hs; simp [groupOps] at hs
  | cons op rest => exact groupOpsAux_no_config _ rest

theorem groupOpsAux_typed (typed : List TestOperation) (g : OpGroup)
    (rest' : List TestOperation)
    (hall : ∀ o ∈ typed, isTypeOp o = true) :
    groupOpsAux g (typed ++ rest')
      = groupOpsAux
          { g with typedTexts :=
              g.typedTexts ++ typed.map (fun o => o.command.get? 5) }
          rest' := by
  induction typed generalizing g with
  | nil => simp
  | cons o os ih =>
    have hty : isTypeOp o = true := hall o (by simp)
    simp only [List.cons_append, groupOpsAux, hty, if_pos, List.append_eq]
    rw [ih _ (fun o' ho' => hall o' (by simp [ho']))]
    simp [List.append_assoc]

theorem groupOpsAux_close (g : OpGroup) (rest' : List TestOperation)
    (hstop : ∀ o, rest'.head? = some o → isTypeOp o = false) :
    groupOpsAux g rest' = closeGroup g :: groupOps rest' := by
  cases rest' with
  | nil => simp [groupOpsAux, groupOps]
  | cons r rs =>
    have : isTypeOp r = false := hstop r rfl
    simp [groupOpsAux, groupOps, this]

theorem typedMembers_length (l : List (Option Char)) (i : Nat) :
    (typedMembers i l).length = l.length := by
  induction l generalizing i with
  | nil => rfl
  | cons t rest ih => simp [typedMembers, ih]

/-- The scheduled delay of a group member, when it has one. -/
def delayOf : GroupMember → Option Nat
  | .typeChar _ d => some d
  | .invokeCmd _ _ => none

def delaysOf (ms : List GroupMember) : List Nat := ms.filterMap delayOf

theorem chain_delays_typedMembers (l : List (Option Char)) (i : Nat) :
    List.Chain' (· < ·) ((i * 20) :: delaysOf (typedMembers (i + 1) l)) := by
  induction l generalizing i with
  | nil => simp [typedMembers, delaysOf]
  | cons t rest ih =>
    have step : delaysOf (typedMembers (i + 1) (t :: rest))
        = ((i + 1) * 20) :: delaysOf (typedMembers (i + 2) rest) := by
      simp [typedMembers, delaysOf, delayOf]
    rw [step]
    refine List.Chain'.cons ?_ (ih (i + 1))
    omega

theorem rewriteCommand_of_typeOp (op : TestOperation)
    (h : isTypeOp op = true) : rewriteCommand op.command = op.command := by
  unfold isTypeOp at h
  cases hc : op.command with
  | nil => rw [hc] at h; simp [leadsWith] at h
  | cons c cs =>
    rw [hc] at h
    have : c = 't' := by
      simp only [leadsWith, Bool.and_eq_true, decide_eq_true_eq] at h
      exact h.1.symm
    subst this
    simp [rewriteCommand]

/-- Unfolding of `parseMarkdownTests` once the header-count check is
known to pass. -/
theorem parseMarkdownTests_eq_checks (ls : List Str)
    (hcount : countHeaders ls = (scan ls).length) :
    parseMarkdownTests ls
      = match checkInitials [] (parsedSetups ls) with
        | .error e => .error e
        | .ok known =>
          match checkTests known (parsedTests ls) with
          | .error e => .error e
          | .ok _ => .ok (parsedSetups ls, parsedTests ls) := by
  have hpart := splitEntries_length (scan ls)
  have hcond : ¬ (countHeaders ls
      ≠ (splitEntries (scan ls)).2.length + (splitEntries (scan ls)).1.length) := by
    omega
  simp only [parseMarkdownTests]
  rw [if_neg hcond]
  rfl

/-! ### Claim C3 -/

def c3lines : List Str :=
  [("# A".data), ("x".data), ("```".data), ("c".data), ("```".data),
   ("# B".data), ("x".data), ("```".data), ("c".data)]

/-- C3: for every input text, `parseMarkdownTests` fails with the
structural "not all tests were parsed" error (and `build` writes no
output for the file) whenever the number of lines beginning with `# `
differs from the number of parsed entries (initial states plus
transitions); entries are never silently dropped. -/
theorem c3_header_count_mismatch_fails (ls : List Str)
    (h : countHeaders ls ≠ (scan ls).length) :
    (parsedSetups ls).length + (parsedTests ls).length = (scan ls).length
    ∧ parseMarkdownTests ls
        = .error (.notAllParsed (countHeaders ls)
            ((parsedTests ls).length + (parsedSetups ls).length))
    ∧ buildFile ls
        = .error (.notAllParsed (countHeaders ls)
            ((parsedTests ls).length + (parsedSetups ls).length)) := by
  have hpart := splitEntries_length (scan ls)
  have hcond : countHeaders ls
      ≠ (splitEntries (scan ls)).2.length + (splitEntries (scan ls)).1.length := by
    omega
  have hp : parseMarkdownTests ls
      = .error (.notAllParsed (countHeaders ls)
          ((parsedTests ls).length + (parsedSetups ls).length)) := by
    simp only [parseMarkdownTests]
    rw [if_pos hcond]
    rfl
  exact ⟨hpart, hp, by simp [buildFile, hp]⟩

/-- Witness: a file whose second entry has an unterminated fenced block
has two `# ` lines but only one parsed entry, and compilation aborts. -/
theorem c3_header_count_mismatch_fails_witness :
    countHeaders c3lines ≠ (scan c3lines).length
    ∧ parseMarkdownTests c3lines = .error (.notAllParsed 2 1)
    ∧ buildFile c3lines = .error (.notAllParsed 2 1) := by
  have h := c3_header_count_mismatch_fails c3lines (by decide)
  exact ⟨by decide, h.2.1, h.2.2⟩

/-! ### Claim C4 -/

/-- C4: every flag matching `(\w+)\.behavior <- (caret|character)`
becomes exactly one selection-behavior configuration step carrying its
scope and value, in flag order and followed by the operation steps; the
first flag not matching the pattern makes `stringifyOperations` throw
the "unrecognized flag" error naming that flag, so no flag is silently
ignored. -/
theorem c4_flag_steps (t : Test) :
    ((∀ f ∈ t.flags, (parseBehaviorFlag f).isSome) →
      ∃ cfg, stringifyOperations t = .ok (cfg ++ groupOps t.operations)
        ∧ cfg.length = t.flags.length
        ∧ ∀ i f, t.flags.get? i = some f →
            ∃ m v, parseBehaviorFlag f = some (m, v)
              ∧ cfg.get? i = some (.configureBehavior m v))
    ∧ (∀ pre f suf, t.flags = pre ++ f :: suf →
        (∀ g ∈ pre, (parseBehaviorFlag g).isSome) →
        parseBehaviorFlag f = none →
        stringifyOperations t = .error (.unrecognizedFlag f)) := by
  constructor
  · intro hall
    rcases stringifyFlags_ok_of_all t.flags hall with ⟨cfg, hok, hlen, hpt⟩
    exact ⟨cfg, by simp [stringifyOperations, hok], hlen, hpt⟩
  · intro pre f suf hsplit hpre hf
    have herr := stringifyFlags_error_at pre f suf hpre hf
    rw [← hsplit] at herr
    simp [stringifyOperations, herr]

def flagTestA : Test :=
  { title := ("t".data), comesAfter := ("a".data),
    operations := [{ command := ("cmd".data), args := none }],
    flags := [("normal.behavior <- caret".data)], codeLines := [] }

def flagTestB : Test :=
  { title := ("t".data), comesAfter := ("a".data),
    operations := [{ command := ("cmd".data), args := none }],
    flags := [("bogus".data)], codeLines := [] }

/-- Witness for C4: a recognized flag compiles to its configuration
step, an unrecognized one throws. -/
theorem c4_flag_steps_witness :
    (∃ cfg, stringifyOperations flagTestA = .ok (cfg ++ groupOps flagTestA.operations)
      ∧ cfg.length = flagTestA.flags.length
      ∧ ∀ i f, flagTestA.flags.get? i = some f →
          ∃ m v, parseBehaviorFlag f = some (m, v)
            ∧ cfg.get? i = some (.configureBehavior m v))
    ∧ stringifyOperations flagTestB = .error (.unrecognizedFlag ("bogus".data)) := by
  constructor
  · exact (c4_flag_steps flagTestA).1 (by decide)
  · exact (c4_flag_steps flagTestB).2 [] ("bogus".data) [] rfl (by simp) (by decide)

/-! ### Claim C5 -/

/-- C5: for a transition with flags and operations, the successful
output of `stringifyOperations` is the configuration steps (one per
flag) followed by the operation steps, and no operation step is a
configuration step — so every flag-derived step precedes every
operation-derived step. -/
theorem c5_flags_before_operations (t : Test) (steps : List Step)
    (hf : t.flags ≠ []) (ho : t.operations ≠ [])
    (h : stringifyOperations t = .ok steps) :
    ∃ cfg, steps = cfg ++ groupOps t.operations
      ∧ cfg.length = t.flags.length
      ∧ (∀ s ∈ cfg, ∃ m v, s = .configureBehavior m v)
      ∧ (∀ s ∈ groupOps t.operations, ∀ m v, s ≠ .configureBehavior m v) := by
  unfold stringifyOperations at h
  cases hfs : stringifyFlags t.flags with
  | error e => rw [hfs] at h; cases h
  | ok cfg =>
    rw [hfs] at h
    cases h
    rcases stringifyFlags_ok_shape _ _ hfs with ⟨hlen, hsh⟩
    exact ⟨cfg, rfl, hlen, hsh, groupOps_no_config t.operations⟩

/-- Witness for C5 at a concrete transition. -/
theorem c5_flags_before_operations_witness :
    ∃ cfg, [Step.configureBehavior ("normal".data) ("caret".data),
            Step.awaitSingle ("cmd".data) none]
        = cfg ++ groupOps flagTestA.operations
      ∧ cfg.length = flagTestA.flags.length
      ∧ (∀ s ∈ cfg, ∃ m v, s = Step.configureBehavior m v)
      ∧ (∀ s ∈ groupOps flagTestA.operations, ∀ m v, s ≠ Step.configureBehavior m v) :=
  c5_flags_before_operations flagTestA
    [Step.configureBehavior ("normal".data) ("caret".data),
     Step.awaitSingle ("cmd".data) none]
    (by decide) (by decide) (by decide)

theorem closeGroup_of_ne (g : OpGroup) (h : g.typedTexts ≠ []) :
    closeGroup g
      = .awaitAll (.invokeCmd g.command g.args :: typedMembers 1 g.typedTexts) := by
  cases hl : g.typedTexts with
  | nil => exact absurd hl h
  | cons x xs => simp [closeGroup, hl]

/-! ### Claim C6 -/

theorem groupOps_batching (op : TestOperation) (typed rest' : List TestOperation)
    (hall : ∀ o ∈ typed, isTypeOp o = true)
    (hstop : ∀ o, rest'.head? = some o → isTypeOp o = false) :
    (typed ≠ [] →
      groupOps (op :: (typed ++ rest'))
        = .awaitAll (.invokeCmd (rewriteCommand op.command) op.args ::
            typedMembers 1 (typed.map (fun o => o.command.get? 5))) :: groupOps rest'
      ∧ (typedMembers 1 (typed.map (fun o => o.command.get? 5))).length = typed.length
      ∧ List.Chain' (· < ·)
          (0 :: delaysOf (typedMembers 1 (typed.map (fun o => o.command.get? 5)))))
    ∧ (typed = [] →
      groupOps (op :: rest')
        = .awaitSingle (rewriteCommand op.command) op.args :: groupOps rest') := by
  constructor
  · intro hne
    have hmap : typed.map (fun o => o.command.get? 5) ≠ [] := by
      simpa using hne
    refine ⟨?_,
      by simpa using typedMembers_length (typed.map (fun o => o.command.get? 5)) 1, ?_⟩
    · show groupOpsAux (mkGroup op) (typed ++ rest') = _
      rw [groupOpsAux_typed typed (mkGroup op) rest' hall,
          groupOpsAux_close _ rest' hstop]
      congr 1
      rw [closeGroup_of_ne _ (by simpa [mkGroup] using hmap)]
      simp [mkGroup]
    · have := chain_delays_typedMembers (typed.map (fun o => o.command.get? 5)) 0
      simpa using this
  · intro hnil
    subst hnil
    show groupOpsAux (mkGroup op) rest' = _
    rw [groupOpsAux_close _ rest' hstop]
    simp [closeGroup, mkGroup]

/-- C6: a maximal nonempty run of `type:` operations following an
invoking operation is emitted as one `Promise.all` group containing the
invoking command and one typed sub-action per `type:` operation, with
strictly increasing fixed stagger offsets (20ms steps), the whole group
being one awaited step before the remaining steps; an operation followed
by no `type:` operation is emitted as one individually awaited step. -/
theorem c6_type_batching (op : TestOperation) (typed rest' : List TestOperation)
    (hall : ∀ o ∈ typed, isTypeOp o = true)
    (hstop : ∀ o, rest'.head? = some o → isTypeOp o = false) :
    (typed ≠ [] →
      groupOps (op :: (typed ++ rest'))
        = .awaitAll (.invokeCmd (rewriteCommand op.command) op.args ::
            typedMembers 1 (typed.map (fun o => o.command.get? 5))) :: groupOps rest'
      ∧ (typedMembers 1 (typed.map (fun o => o.command.get? 5))).length = typed.length
      ∧ List.Chain' (· < ·)
          (0 :: delaysOf (typedMembers 1 (typed.map (fun o => o.command.get? 5)))))
    ∧ (typed = [] →
      groupOps (op :: rest')
        = .awaitSingle (rewriteCommand op.command) op.args :: groupOps rest') :=
  groupOps_batching op typed rest' hall hstop

def batchOpA : TestOperation := { command := ("cmd".data), args := none }

def batchTypeA : TestOperation := { command := ("type:a".data), args := none }

def batchTypeB : TestOperation := { command := ("type:b".data), args := none }

def batchOpB : TestOperation := { command := ("cmd2".data), args := none }

/-- Witness for C6 at a concrete run of two `type:` operations. -/
theorem c6_type_batching_witness :
    groupOps [batchOpA, batchTypeA, batchTypeB, batchOpB]
      = .awaitAll (.invokeCmd (rewriteCommand batchOpA.command) batchOpA.args ::
          typedMembers 1 ([batchTypeA, batchTypeB].map (fun o => o.command.get? 5)))
          :: groupOps [batchOpB]
    ∧ (typedMembers 1 ([batchTypeA, batchTypeB].map (fun o => o.command.get? 5))).length = 2
    ∧ List.Chain' (· < ·)
        (0 :: delaysOf (typedMembers 1 ([batchTypeA, batchTypeB].map (fun o => o.command.get? 5)))) :=
  (c6_type_batching batchOpA [batchTypeA, batchTypeB] [batchOpB]
    (by decide) (by decide)).1 (by decide)

/-! ### Claim C10 -/

/-- C10 counterexample: a leading `type:a` operation followed by another
`type:` operation is merged into a `Promise.all` group (as its invoking
member), not emitted as an individually awaited invocation. -/
theorem c10_leading_type_counterexample :
    stringifyOperations
      { title := ("t".data), comesAfter := ("a".data),
        operations := [batchTypeA, batchTypeB], flags := [], codeLines := [] }
      = .ok [.awaitAll [.invokeCmd ("type:a".data) none, .typeChar (some 'b') 20]]
    ∧ Step.awaitSingle ("type:a".data) none
        ∉ [Step.awaitAll [GroupMember.invokeCmd ("type:a".data) none,
                          GroupMember.typeChar (some 'b') 20]] := by
  decide

/-- C10 (amended): a `type:<char>` operation that does not immediately
follow another operation is not rejected; its command name stays
literal (no `dance` rewriting).  When no `type:` operations follow it,
it is emitted as an ordinary individually awaited invocation of the
literal command; when `type:` operations follow it, it becomes the
invoking member of the single merged group, still invoked under its
literal command name. -/
theorem c10_leading_type_amended (op : TestOperation) (hty : isTypeOp op = true) :
    (∀ rest', (∀ o, rest'.head? = some o → isTypeOp o = false) →
      groupOps (op :: rest') = .awaitSingle op.command op.args :: groupOps rest')
    ∧ (∀ typed rest', typed ≠ [] → (∀ o ∈ typed, isTypeOp o = true) →
        (∀ o, rest'.head? = some o → isTypeOp o = false) →
        groupOps (op :: (typed ++ rest'))
          = .awaitAll (.invokeCmd op.command op.args ::
              typedMembers 1 (typed.map (fun o => o.command.get? 5))) :: groupOps rest') := by
  have hrw : rewriteCommand op.command = op.command := rewriteCommand_of_typeOp op hty
  constructor
  · intro rest' hstop
    have := (groupOps_batching op [] rest' (by simp) hstop).2 rfl
    rwa [hrw] at this
  · intro typed rest' hne hall hstop
    have := ((groupOps_batching op typed rest' hall hstop).1 hne).1
    rwa [hrw] at this

/-- Witness for the amended C10: a lone leading `type:a` is an ordinary
awaited invocation of the literal command `type:a`. -/
theorem c10_leading_type_amended_witness :
    groupOps [batchTypeA] = [Step.awaitSingle ("type:a".data) none] := by
  have h := (c10_leading_type_amended batchTypeA (by decide)).1 []
    (by intro o ho; cases ho)
  simpa [groupOps] using h

/-! ### Claim C2 -/

/-- Characters surviving removal of JavaScript whitespace. -/
def jsStripWs (s : Str) : Str := s.filter (fun c => !(jsWs c))

/-- The claim's relation "header texts differing only in whitespace":
equal after deleting all whitespace characters, but not equal. -/
def headersDifferOnlyInWs (s t : Str) : Bool :=
  jsStripWs s == jsStripWs t && !(s == t)

/-- Position-wise whitespace variation: equal length, and at every
position either the characters agree or both are whitespace. -/
def sameShapeWs : Str → Str → Bool
  | [], [] => true
  | a :: as, b :: bs => (a == b || (jsWs a && jsWs b)) && sameShapeWs as bs
  | _, _ => false

theorem deriveTitle_eq_of_sameShape (s t : Str) (h : sameShapeWs s t = true) :
    deriveTitle s = deriveTitle t := by
  induction s generalizing t with
  | nil =>
    cases t with
    | nil => rfl
    | cons b bs => simp [sameShapeWs] at h
  | cons a as ih =>
    cases t with
    | nil => simp [sameShapeWs] at h
    | cons b bs =>
      simp only [sameShapeWs, Bool.and_eq_true, Bool.or_eq_true,
        beq_iff_eq] at h
      rcases h with ⟨h1, h2⟩
      simp only [deriveTitle, List.map] at *
      rw [ih bs h2]
      congr 1
      rcases h1 with rfl | ⟨hwa, hwb⟩
      · rfl
      · simp [hwa, hwb]

def c2lines : List Str :=
  [("# a b".data), ("x".data), ("```".data), ("c".data), ("```".data),
   ("# a  b".data), ("x".data), ("```".data), ("c".data), ("```".data)]

/-- C2 counterexample: the headers `a b` and `a  b` differ only in
whitespace, yet derive different titles (`a-b` vs `a--b`), and a file
declaring both as initial states parses without any duplicate-title
error. -/
theorem c2_whitespace_titles_counterexample :
    headersDifferOnlyInWs ("a b".data) ("a  b".data) = true
    ∧ deriveTitle ("a b".data) ≠ deriveTitle ("a  b".data)
    ∧ setupTitles c2lines = [deriveTitle ("a b".data), deriveTitle ("a  b".data)]
    ∧ (parseMarkdownTests c2lines).isOk = true := by
  decide

/-- C2 (amended): header texts whose whitespace varies position-wise
(equal length, equal characters outside whitespace positions) derive
the same title, each whitespace character being replaced by one hyphen;
and whenever two InitialState entries derive the same title (in a file
passing the header-count check), `parseMarkdownTests` rejects with a
duplicate-title error.  Headers differing in the number of whitespace
characters derive different titles, and duplicate Transition titles are
not rejected. -/
theorem c2_whitespace_titles_amended :
    (∀ s t, sameShapeWs s t = true → deriveTitle s = deriveTitle t)
    ∧ ∀ ls, countHeaders ls = (scan ls).length →
        ¬ (setupTitles ls).Nodup →
        ∃ ttl, parseMarkdownTests ls = .error (.duplicateInitial ttl) := by
  refine ⟨deriveTitle_eq_of_sameShape, ?_⟩
  intro ls hcount hdup
  rcases checkInitials_error_of_dup (parsedSetups ls) [] (Or.inl hdup)
    with ⟨ttl, herr⟩
  refine ⟨ttl, ?_⟩
  rw [parseMarkdownTests_eq_checks ls hcount, herr]

def c2dupLines : List Str :=
  [("# a b".data), ("x".data), ("```".data), ("c".data), ("```".data),
   ("# a\tb".data), ("x".data), ("```".data), ("c".data), ("```".data)]

/-- Witness for the amended C2: `a b` and `a<tab>b` vary only
position-wise in whitespace, derive the same title `a-b`, and the file
declaring both as initial states is rejected as a duplicate. -/
theorem c2_whitespace_titles_amended_witness :
    deriveTitle ("a b".data) = deriveTitle ("a\tb".data)
    ∧ ∃ ttl, parseMarkdownTests c2dupLines = .error (.duplicateInitial ttl) :=
  ⟨c2_whitespace_titles_amended.1 ("a b".data) ("a\tb".data) (by decide),
   c2_whitespace_titles_amended.2 c2dupLines (by decide) (by decide)⟩

/-! ### Claim C1 -/

/-- C1: in a structurally valid file without duplicate initial titles,
a transition whose `comesAfter` is not declared earlier (by an initial
state or a prior transition) makes `parseMarkdownTests` reject with the
fatal validation error naming the offending test's title and the
missing dependency title — wherever that title may appear later; and
whenever any transition's dependency is undeclared at its position, the
parse never succeeds. -/
theorem c1_unknown_dependency_rejected (ls : List Str)
    (hcount : countHeaders ls = (scan ls).length)
    (hnodup : (setupTitles ls).Nodup) :
    (∀ pre t suf, parsedTests ls = pre ++ t :: suf →
      (∀ i u, pre.get? i = some u →
        u.comesAfter ∈ knownAfter (setupTitles ls) (pre.take i)) →
      t.comesAfter ∉ knownAfter (setupTitles ls) pre →
      parseMarkdownTests ls = .error (.unknownDependency t.title t.comesAfter))
    ∧ ((∃ i u, (parsedTests ls).get? i = some u ∧
        u.comesAfter ∉ knownAfter (setupTitles ls) ((parsedTests ls).take i)) →
      (parseMarkdownTests ls).isOk = false) := by
  obtain ⟨r, hr, hrmem⟩ :=
    checkInitials_ok_of_nodup (parsedSetups ls) [] (by simp) hnodup
  have hrmem' : ∀ x, x ∈ r ↔ x ∈ setupTitles ls := by
    intro x
    rw [hrmem x]
    simp [setupTitles]
  constructor
  · intro pre t suf hsplit hpre hbad
    rw [parseMarkdownTests_eq_checks ls hcount, hr]
    have herr : checkTests r (parsedTests ls)
        = .error (.unknownDependency t.title t.comesAfter) := by
      rw [hsplit]
      apply checkTests_error_at
      · intro i u hu
        have hin := hpre i u hu
        rw [mem_knownAfter] at hin ⊢
        rcases hin with hin | hin
        · exact Or.inl ((hrmem' _).mpr hin)
        · exact Or.inr hin
      · intro hmem
        apply hbad
        rw [mem_knownAfter] at hmem ⊢
        rcases hmem with hmem | hmem
        · exact Or.inl ((hrmem' _).mp hmem)
        · exact Or.inr hmem
    simp [herr]
  · rintro ⟨i, u, hu, hbad⟩
    rw [parseMarkdownTests_eq_checks ls hcount, hr]
    cases hct : checkTests r (parsedTests ls) with
    | error e =>
      simp only [hct]
      rfl
    | ok unitval =>
      exfalso
      apply hbad
      have hin := checkTests_ok_deps (parsedTests ls) r
        (by cases unitval; exact hct) i u hu
      rw [mem_knownAfter] at hin ⊢
      rcases hin with hin | hin
      · exact Or.inl ((hrmem' _).mp hin)
      · exact Or.inr hin

def c1lines : List Str :=
  [("# A".data), ("x".data), ("```".data), ("c".data), ("```".data),
   ("# B".data), ("[a](#C)".data), ("x".data), ("```".data), ("c".data), ("```".data),
   ("# C".data), ("[a](#A)".data), ("x".data), ("```".data), ("c".data), ("```".data)]

/-- Witness for C1: test `B` references `C`, which is only declared
later in the file; the parse is rejected naming `B` and `C`. -/
theorem c1_unknown_dependency_rejected_witness :
    (parsedTests c1lines).map (fun t => (t.title, t.comesAfter))
        = [(("B".data), ("C".data)), (("C".data), ("A".data))]
    ∧ parseMarkdownTests c1lines
        = .error (.unknownDependency ("B".data) ("C".data)) := by
  refine ⟨by decide, ?_⟩
  exact (c1_unknown_dependency_rejected c1lines (by decide) (by decide)).1
    []
    { title := ("B".data), comesAfter := ("C".data), operations := [],
      flags := [], codeLines := [("c".data)] }
    [{ title := ("C".data), comesAfter := ("A".data), operations := [],
       flags := [], codeLines := [("c".data)] }]
    (by decide)
    (by intro i u hu; simp at hu)
    (by decide)

/-! ### Claim C9 -/

/-- C9: `parseMarkdownTests` accepts a specification in which a
transition's title equals the title of an initial state or of an
earlier transition: acceptance requires only the header-count check,
distinct initial titles, and every dependency being declared earlier;
no uniqueness of transition titles is checked, and every transition's
title is unconditionally added to the known set. -/
theorem c9_transition_title_shadowing_accepted (ls : List Str)
    (hcount : countHeaders ls = (scan ls).length)
    (hnodup : (setupTitles ls).Nodup)
    (hdeps : checkTests (setupTitles ls) (parsedTests ls) = .ok ())
    (hcollide : ∃ i u, (parsedTests ls).get? i = some u ∧
      (u.title ∈ setupTitles ls ∨
        ∃ j v, j < i ∧ (parsedTests ls).get? j = some v ∧ v.title = u.title)) :
    parseMarkdownTests ls = .ok (parsedSetups ls, parsedTests ls) := by
  obtain ⟨r, hr, hrmem⟩ :=
    checkInitials_ok_of_nodup (parsedSetups ls) [] (by simp) hnodup
  have hrmem' : ∀ x, x ∈ r ↔ x ∈ setupTitles ls := by
    intro x
    rw [hrmem x]
    simp [setupTitles]
  rw [parseMarkdownTests_eq_checks ls hcount, hr]
  have hok : checkTests r (parsedTests ls) = .ok () := by
    apply checkTests_ok_of_deps
    intro i u hu
    have hin := checkTests_ok_deps (parsedTests ls) (setupTitles ls) hdeps i u hu
    rw [mem_knownAfter] at hin ⊢
    rcases hin with hin | hin
    · exact Or.inl ((hrmem' _).mpr hin)
    · exact Or.inr hin
  simp [hok]

def c9lines : List Str :=
  [("# A".data), ("x".data), ("```".data), ("c".data), ("```".data),
   ("# A".data), ("[a](#A)".data), ("x".data), ("```".data), ("c".data), ("```".data),
   ("# B".data), ("[a](#A)".data), ("x".data), ("```".data), ("c".data), ("```".data),
   ("# B".data), ("[a](#B)".data), ("x".data), ("```".data), ("c".data), ("```".data)]

/-- Witness for C9: a transition titled `A` (shadowing the initial
state `A`) and a second transition titled `B` (shadowing the earlier
transition `B`) are both accepted. -/
theorem c9_transition_title_shadowing_accepted_witness :
    setupTitles c9lines = [("A".data)]
    ∧ (parsedTests c9lines).map (fun t => (t.title, t.comesAfter))
        = [(("A".data), ("A".data)), (("B".data), ("A".data)),
           (("B".data), ("B".data))]
    ∧ parseMarkdownTests c9lines = .ok (parsedSetups c9lines, parsedTests c9lines) := by
  refine ⟨by decide, by decide, ?_⟩
  exact c9_transition_title_shadowing_accepted c9lines (by decide) (by decide)
    (by decide)
    ⟨0,
     { title := ("A".data), comesAfter := ("A".data), operations := [],
       flags := [], codeLines := [("c".data)] },
     by decide, Or.inl (by decide)⟩

/-! ### Claim C7 -/

theorem buildTests_ok_pointwise (ts : List Test) (gts : List GeneratedTest)
    (h : buildTests ts = .ok gts) :
    gts.length = ts.length
    ∧ ∀ i t', ts.get? i = some t' → ∃ g, gts.get? i = some g
        ∧ g.title = t'.title ∧ g.comesAfter = t'.comesAfter
        ∧ g.codeLines = t'.codeLines ∧ stringifyOperations t' = .ok g.steps := by
  induction ts generalizing gts with
  | nil =>
    simp only [buildTests] at h
    cases h
    exact ⟨rfl, by intro i t' h'; simp at h'⟩
  | cons t rest ih =>
    simp only [buildTests] at h
    cases hso : stringifyOperations t with
    | error e => rw [hso] at h; cases h
    | ok steps =>
      rw [hso] at h
      cases hbt : buildTests rest with
      | error e => rw [hbt] at h; cases h
      | ok grest =>
        rw [hbt] at h
        cases h
        rcases ih grest hbt with ⟨hlen, hpt⟩
        refine ⟨by simp [hlen], ?_⟩
        intro i t' ht'
        cases i with
        | zero =>
          simp only [List.get?] at ht'
          cases ht'
          exact ⟨_, rfl, rfl, rfl, rfl, hso⟩
        | succ n =>
          simp only [List.get?] at ht' ⊢
          exact hpt n t' ht'

theorem buildSuite_shape (ini : List InitialDocument) (ts : List Test)
    (suite : Suite) (hbuild : buildSuite ini ts = .ok suite) :
    suite.genTests.length = ts.length
    ∧ suite.resolvedDocs = ini.map (fun d => (d.title, d.codeLines))
    ∧ suite.placeholders = ts.map (fun t => t.title)
    ∧ ∀ i t', ts.get? i = some t' → ∃ g, suite.genTests.get? i = some g
        ∧ g.title = t'.title ∧ g.comesAfter = t'.comesAfter
        ∧ g.codeLines = t'.codeLines ∧ stringifyOperations t' = .ok g.steps := by
  unfold buildSuite at hbuild
  cases hbt : buildTests ts with
  | error e => rw [hbt] at hbuild; cases hbuild
  | ok gts =>
    rw [hbt] at hbuild
    cases hbuild
    rcases buildTests_ok_pointwise ts gts hbt with ⟨hlen, hpt⟩
    exact ⟨hlen, rfl, rfl, hpt⟩

/-- C7: for an accepted specification whose suite is emitted, the suite
holds exactly one generated test per transition (same title,
predecessor and expected document, in order), exactly one immediately
resolved table entry per initial state (keyed by its title, holding its
document), and exactly one placeholder with a resolver keyed by title
per transition. -/
theorem c7_suite_shape (ls : List Str) (ini : List InitialDocument)
    (ts : List Test) (suite : Suite)
    (hparse : parseMarkdownTests ls = .ok (ini, ts))
    (hbuild : buildSuite ini ts = .ok suite) :
    suite.genTests.length = ts.length
    ∧ suite.resolvedDocs = ini.map (fun d => (d.title, d.codeLines))
    ∧ suite.placeholders = ts.map (fun t => t.title)
    ∧ ∀ i t', ts.get? i = some t' → ∃ g, suite.genTests.get? i = some g
        ∧ g.title = t'.title ∧ g.comesAfter = t'.comesAfter
        ∧ g.codeLines = t'.codeLines ∧ stringifyOperations t' = .ok g.steps :=
  buildSuite_shape ini ts suite hbuild

def c7lines : List Str :=
  [("# A".data), ("x".data), ("```".data), ("c".data), ("```".data),
   ("# B".data), ("[a](#A)".data), ("- cmd".data), ("```".data), ("d".data), ("```".data)]

/-- Witness for C7 at a concrete accepted file. -/
theorem c7_suite_shape_witness :
    (builtSuite c7lines).genTests.length = (parsedTests c7lines).length
    ∧ (builtSuite c7lines).resolvedDocs
        = (parsedSetups c7lines).map (fun d => (d.title, d.codeLines))
    ∧ (builtSuite c7lines).placeholders
        = (parsedTests c7lines).map (fun t => t.title)
    ∧ ∀ i t', (parsedTests c7lines).get? i = some t' →
        ∃ g, (builtSuite c7lines).genTests.get? i = some g
          ∧ g.title = t'.title ∧ g.comesAfter = t'.comesAfter
          ∧ g.codeLines = t'.codeLines ∧ stringifyOperations t' = .ok g.steps :=
  c7_suite_shape c7lines (parsedSetups c7lines) (parsedTests c7lines)
    (builtSuite c7lines) (by decide) (by decide)

/-! ### Claim C8: runtime lemmas -/

theorem lookupLast_append_some {α : Type} (xs ys : List (Str × α))
    (key : Str) (r : α) (h : lookupLast ys key = some r) :
    lookupLast (xs ++ ys) key = some r := by
  induction xs with
  | nil => simpa using h
  | cons p rest ih =>
    obtain ⟨k, v⟩ := p
    simp [lookupLast, ih]

theorem lookupLast_append_none {α : Type} (xs ys : List (Str × α))
    (key : Str) (h : lookupLast ys key = none) :
    lookupLast (xs ++ ys) key = lookupLast xs key := by
  induction xs with
  | nil => simpa using h
  | cons p rest ih =>
    obtain ⟨k, v⟩ := p
    simp only [List.cons_append, lookupLast, List.append_eq, ih]

theorem lookupLast_eq_none {α : Type} (xs : List (Str × α)) (key : Str) :
    lookupLast xs key = none ↔ key ∉ xs.map Prod.fst := by
  induction xs with
  | nil => simp [lookupLast]
  | cons p rest ih =>
    obtain ⟨k, v⟩ := p
    constructor
    · intro hc hm
      simp only [lookupLast] at hc
      cases h : lookupLast rest key with
      | some r => rw [h] at hc; cases hc
      | none =>
        rw [h] at hc
        rcases List.mem_cons.mp hm with hm1 | hm2
        · rw [if_pos hm1.symm] at hc; cases hc
        · exact (ih.mp h) hm2
    · intro hm
      have hm1 : ¬ k = key := by
        intro hEq
        subst hEq
        exact hm (show k ∈ k :: List.map Prod.fst rest from
          List.mem_cons_self _ _)
      have hm2 : key ∉ List.map Prod.fst rest := by
        intro hx
        exact hm (show key ∈ k :: List.map Prod.fst rest from
          List.mem_cons_of_mem _ hx)
      have h : lookupLast rest key = none := ih.mpr hm2
      simp [lookupLast, h, hm1]

theorem lookupLast_mem {α : Type} (xs : List (Str × α)) (key : Str) (v : α)
    (h : lookupLast xs key = some v) : (key, v) ∈ xs := by
  induction xs with
  | nil => cases h
  | cons p rest ih =>
    obtain ⟨k, w⟩ := p
    simp only [lookupLast] at h
    cases h2 : lookupLast rest key with
    | some r =>
      rw [h2] at h
      cases h
      exact List.mem_cons_of_mem _ (ih h2)
    | none =>
      rw [h2] at h
      by_cases hk : k = key
      · rw [if_pos hk] at h
        cases h
        subst hk
        exact List.mem_cons_self _ _
      · rw [if_neg hk] at h
        cases h

theorem lookupLast_isSome_of_mem {α : Type} (xs : List (Str × α)) (key : Str)
    (h : key ∈ xs.map Prod.fst) : ∃ v, lookupLast xs key = some v := by
  cases hl : lookupLast xs key with
  | some v => exact ⟨v, rfl⟩
  | none => exact absurd h ((lookupLast_eq_none xs key).mp hl)

theorem lastIndexOf_none_of_not_mem (gts : List GeneratedTest) (title : Str)
    (h : title ∉ gts.map (fun g => g.title)) : lastIndexOf gts title = none := by
  induction gts with
  | nil => rfl
  | cons g rest ih =>
    have h1 : ¬ g.title = title := by
      intro hEq
      exact h (by simp [hEq])
    have h2 : title ∉ rest.map (fun g => g.title) := by
      intro hx
      exact h (by simp [hx])
    simp [lastIndexOf, ih h2, h1]

theorem lastIndexOf_of_nodup (gts : List GeneratedTest)
    (hnd : (gts.map (fun g => g.title)).Nodup) (k : Nat) (g : GeneratedTest)
    (h : gts.get? k = some g) : lastIndexOf gts g.title = some k := by
  induction gts generalizing k with
  | nil => cases h
  | cons g0 rest ih =>
    simp only [List.map, List.nodup_cons] at hnd
    cases k with
    | zero =>
      simp only [List.get?] at h
      cases h
      have hnone : lastIndexOf rest g.title = none :=
        lastIndexOf_none_of_not_mem rest g.title hnd.1
      simp [lastIndexOf, hnone]
    | succ n =>
      simp only [List.get?] at h
      have hr := ih hnd.2 n h
      simp [lastIndexOf, hr]

theorem mkPlaceholders_keys (gts : List GeneratedTest) (b : Nat) :
    (mkPlaceholders b gts).map Prod.fst = gts.map (fun g => g.title) := by
  induction gts generalizing b with
  | nil => rfl
  | cons g rest ih => simp [mkPlaceholders, ih]

theorem mkPlaceholders_lookup (gts : List GeneratedTest)
    (hnd : (gts.map (fun g => g.title)).Nodup) (k : Nat) (g : GeneratedTest)
    (h : gts.get? k = some g) (b : Nat) :
    lookupLast (mkPlaceholders b gts) g.title = some (.placeholder (b + k)) := by
  induction gts generalizing k b with
  | nil => cases h
  | cons g0 rest ih =>
    simp only [List.map, List.nodup_cons] at hnd
    cases k with
    | zero =>
      simp only [List.get?] at h
      cases h
      have hnone : lookupLast (mkPlaceholders (b + 1) rest) g.title = none := by
        rw [lookupLast_eq_none, mkPlaceholders_keys]
        exact hnd.1
      simp [mkPlaceholders, lookupLast, hnone]
    | succ n =>
      simp only [List.get?] at h
      have hr := ih hnd.2 n h (b + 1)
      simp only [mkPlaceholders, lookupLast, hr]
      congr 2
      omega

theorem nodup_get?_eq {α : Type} (l : List α) (hnd : l.Nodup) (i j : Nat)
    (x : α) (hi : l.get? i = some x) (hj : l.get? j = some x) : i = j := by
  induction l generalizing i j with
  | nil => cases hi
  | cons a as ih =>
    rw [List.nodup_cons] at hnd
    cases i with
    | zero =>
      cases j with
      | zero => rfl
      | succ m =>
        simp only [List.get?] at hi hj
        cases hi
        exact absurd (List.get?_mem hj) hnd.1
    | succ n =>
      cases j with
      | zero =>
        simp only [List.get?] at hi hj
        cases hj
        exact absurd (List.get?_mem hi) hnd.1
      | succ m =>
        simp only [List.get?] at hi hj
        rw [ih hnd.2 n m hi hj]

theorem runTestsAux_length (table : List (Str × DocEntry))
    (gts : List GeneratedTest) (oracle : Nat → Bool) (k : Nat) (store : Store)
    (rem : List GeneratedTest) :
    (runTestsAux table gts oracle k store rem).length = rem.length := by
  induction rem generalizing k store with
  | nil => rfl
  | cons t rest ih =>
    simp only [runTestsAux]
    cases awaitEntry table store t.comesAfter with
    | none => simp [ih]
    | some v =>
      cases v with
      | none => simp [ih]
      | some d =>
        by_cases ho : oracle k <;> simp [ho, ih]

theorem notify_set (gts : List GeneratedTest) (store : Store) (k : Nat)
    (g : GeneratedTest) (hnd : (gts.map (fun g => g.title)).Nodup)
    (hget : gts.get? k = some g) (hk : store.get? k = some none)
    (v : Option (List Str)) :
    notify gts store g.title v = store.set k (some v) := by
  unfold notify
  rw [lastIndexOf_of_nodup gts hnd k g hget]
  show (match store.get? k with
        | some none => store.set k (some v)
        | _ => store) = store.set k (some v)
  rw [hk]

theorem checkInitials_ok_mem (ini : List InitialDocument) (k r : List Str)
    (h : checkInitials k ini = .ok r) :
    ∀ x, x ∈ r ↔ x ∈ k ∨ x ∈ ini.map (fun d => d.title) := by
  induction ini generalizing k with
  | nil =>
    simp only [checkInitials] at h
    cases h
    simp
  | cons d ds ih =>
    simp only [checkInitials] at h
    by_cases hd : d.title ∈ k
    · rw [if_pos hd] at h; cases h
    · rw [if_neg hd] at h
      intro x
      rw [ih _ h x]
      simp only [List.mem_cons, List.map, List.mem_cons]
      tauto

theorem parse_ok_inv (ls : List Str) (ini : List InitialDocument)
    (ts : List Test) (h : parseMarkdownTests ls = .ok (ini, ts)) :
    ini = parsedSetups ls ∧ ts = parsedTests ls ∧
    ∃ r, checkInitials [] (parsedSetups ls) = .ok r
      ∧ checkTests r (parsedTests ls) = .ok () := by
  simp only [parseMarkdownTests] at h
  by_cases hc : countHeaders ls
      ≠ (splitEntries (scan ls)).2.length + (splitEntries (scan ls)).1.length
  · rw [if_pos hc] at h; cases h
  · rw [if_neg hc] at h
    cases hini : checkInitials [] (splitEntries (scan ls)).1 with
    | error e =>
      rw [hini] at h
      simp at h
    | ok r =>
      rw [hini] at h
      replace h : (match checkTests r (splitEntries (scan ls)).2 with
          | Except.error e => Except.error e
          | Except.ok _ => Except.ok (splitEntries (scan ls)))
          = Except.ok (ini, ts) := h
      cases hct : checkTests r (splitEntries (scan ls)).2 with
      | error e =>
        rw [hct] at h
        simp at h
      | ok u =>
        rw [hct] at h
        have hpr : splitEntries (scan ls) = (ini, ts) := by simpa using h
        refine ⟨(congrArg Prod.fst hpr).symm, (congrArg Prod.snd hpr).symm,
          r, hini, ?_⟩
        cases u
        exact hct

theorem map_eq_of_get? {α β γ : Type} (f : α → γ) (g : β → γ)
    (l1 : List α) (l2 : List β) (hlen : l1.length = l2.length)
    (h : ∀ i x, l2.get? i = some x → ∃ y, l1.get? i = some y ∧ f y = g x) :
    l1.map f = l2.map g := by
  apply List.ext
  intro n
  rw [List.get?_map, List.get?_map]
  cases h2 : l2.get? n with
  | none =>
    have h1 : l1.get? n = none := by
      rw [List.get?_eq_none]
      rw [List.get?_eq_none] at h2
      omega
    rw [h1]
    simp
  | some x =>
    rcases h n x h2 with ⟨y, hy, hf⟩
    rw [hy]
    simp [hf]

theorem suite_nodup_keys (ls : List Str) (ini : List InitialDocument)
    (ts : List Test) (suite : Suite)
    (hparse : parseMarkdownTests ls = .ok (ini, ts))
    (hbuild : buildSuite ini ts = .ok suite)
    (hnodup : (ini.map (fun d => d.title) ++ ts.map (fun t => t.title)).Nodup) :
    (suite.resolvedDocs.map Prod.fst
      ++ suite.genTests.map (fun g => g.title)).Nodup := by
  rcases buildSuite_shape ini ts suite hbuild with ⟨hlen, hdocs, hph, hpt⟩
  have h1 : suite.resolvedDocs.map Prod.fst = ini.map (fun d => d.title) := by
    rw [hdocs]
    simp [List.map_map, Function.comp]
  have h2 : suite.genTests.map (fun g => g.title) = ts.map (fun t => t.title) :=
    map_eq_of_get? _ _ suite.genTests ts hlen
      (fun i x hx => (hpt i x hx).elim fun g hg => ⟨g, hg.1, hg.2.1⟩)
  rw [h1, h2]
  exact hnodup

theorem suite_deps (ls : List Str) (ini : List InitialDocument)
    (ts : List Test) (suite : Suite)
    (hparse : parseMarkdownTests ls = .ok (ini, ts))
    (hbuild : buildSuite ini ts = .ok suite) :
    ∀ j g, suite.genTests.get? j = some g →
      g.comesAfter ∈ suite.resolvedDocs.map Prod.fst ∨
      ∃ i g', i < j ∧ suite.genTests.get? i = some g'
        ∧ g'.title = g.comesAfter := by
  obtain ⟨hini, hts, r, hchk, hct⟩ := parse_ok_inv ls ini ts hparse
  subst hini
  subst hts
  rcases buildSuite_shape _ _ suite hbuild with ⟨hlen, hdocs, hph, hpt⟩
  have hrmem := checkInitials_ok_mem _ _ _ hchk
  intro j g hgj
  have hjlt : j < suite.genTests.length := by
    rcases List.get?_eq_some.mp hgj with ⟨hl, _⟩
    exact hl
  obtain ⟨t', ht'⟩ : ∃ t', (parsedTests ls).get? j = some t' := by
    cases h2 : (parsedTests ls).get? j with
    | none =>
      rw [List.get?_eq_none] at h2
      omega
    | some t' => exact ⟨t', rfl⟩
  rcases hpt j t' ht' with ⟨g2, hg2, htitle, hca, hcode, hsteps⟩
  have hgg : g2 = g := by
    rw [hgj] at hg2
    injection hg2 with h3
    exact h3.symm
  subst hgg
  have hdep := checkTests_ok_deps _ _ hct j t' ht'
  rw [mem_knownAfter] at hdep
  rcases hdep with hin | hin
  · left
    rw [hdocs, hca]
    have hmem : t'.comesAfter ∈ (parsedSetups ls).map (fun d => d.title) := by
      have := (hrmem _).mp hin
      simpa using this
    simpa [List.map_map, Function.comp] using hmem
  · right
    rcases mem_map_take (fun t => t.title) (parsedTests ls) j t'.comesAfter hin
      with ⟨i, u, hij, hu, hut⟩
    rcases hpt i u hu with ⟨g', hg', hgt, _, _, _⟩
    refine ⟨i, g', hij, hg', ?_⟩
    rw [hgt, hut, hca]

/-- Core cascade invariant of the generated suite's runtime: processing
the remaining tests from position `k`, with the already settled
placeholder store matching the recorded history, a test whose
predecessor test did not pass is reported skipped. -/
theorem runCascade (suite : Suite) (oracle : Nat → Bool)
    (hnd : (suite.resolvedDocs.map Prod.fst
        ++ suite.genTests.map (fun g => g.title)).Nodup)
    (hdeps : ∀ j g, suite.genTests.get? j = some g →
      g.comesAfter ∈ suite.resolvedDocs.map Prod.fst ∨
      ∃ i g', i < j ∧ suite.genTests.get? i = some g'
        ∧ g'.title = g.comesAfter) :
    ∀ (rem : List GeneratedTest) (k : Nat) (store : Store)
      (hist : List TestResult),
      suite.genTests.drop k = rem →
      hist.length = k →
      store.length = suite.genTests.length →
      (∀ i g', i < k → suite.genTests.get? i = some g' →
        store.get? i = some (some
          (if hist.get? i = some TestResult.passed then some g'.codeLines
           else none))) →
      (∀ i, k ≤ i → i < suite.genTests.length → store.get? i = some none) →
      ∀ j gj, suite.genTests.get? j = some gj → k ≤ j →
        ∀ i gi, i < j → suite.genTests.get? i = some gi →
          gi.title = gj.comesAfter →
          (hist
            ++ runTestsAux (mkTable suite) suite.genTests oracle k store rem).get? i
            ≠ some TestResult.passed →
          (runTestsAux (mkTable suite) suite.genTests oracle k store rem).get? (j - k)
            = some TestResult.skipped := by
  have hndgt : (suite.genTests.map (fun g => g.title)).Nodup :=
    (List.nodup_append.mp hnd).2.1
  have hdisj : (suite.resolvedDocs.map Prod.fst).Disjoint
      (suite.genTests.map (fun g => g.title)) :=
    (List.nodup_append.mp hnd).2.2
  intro rem
  induction rem with
  | nil =>
    intro k store hist hdrop hh hsl hI1 hI2 j gj hgj hkj i gi hij hgi htitle hpred
    exfalso
    have hlen : suite.genTests.length ≤ k := List.drop_eq_nil_iff_le.mp hdrop
    rcases List.get?_eq_some.mp hgj with ⟨hjl, _⟩
    omega
  | cons t rest ih =>
    intro k store hist hdrop hh hsl hI1 hI2
    have hgtk : suite.genTests.get? k = some t := by
      have h0 : (suite.genTests.drop k).get? 0 = some t := by rw [hdrop]; rfl
      rw [List.get?_drop] at h0
      simpa using h0
    have hkn : k < suite.genTests.length := by
      rcases List.get?_eq_some.mp hgtk with ⟨hl, _⟩
      exact hl
    have hdropSucc : suite.genTests.drop (k + 1) = rest := by
      have h1 : List.drop 1 (List.drop k suite.genTests)
          = List.drop (k + 1) suite.genTests := List.drop_drop 1 k _
      rw [hdrop] at h1
      exact h1.symm
    have hstk : store.get? k = some none := hI2 k le_rfl hkn
    obtain ⟨val, hawait, hvalNone⟩ :
        ∃ val, awaitEntry (mkTable suite) store t.comesAfter = some val
          ∧ ∀ i2 gi2, i2 < k → suite.genTests.get? i2 = some gi2 →
              gi2.title = t.comesAfter →
              hist.get? i2 ≠ some TestResult.passed → val = none := by
      rcases hdeps k t hgtk with hsetup | ⟨i0, g0, hi0, hg0, ht0⟩
      · have hnot : t.comesAfter
            ∉ (mkPlaceholders 0 suite.genTests).map Prod.fst := by
          rw [mkPlaceholders_keys]
          intro hm
          exact hdisj hsetup hm
        have hnone : lookupLast (mkPlaceholders 0 suite.genTests) t.comesAfter
            = none := (lookupLast_eq_none _ _).mpr hnot
        have hlookup0 := lookupLast_append_none
          (suite.resolvedDocs.map (fun p => (p.1, DocEntry.resolvedDoc p.2)))
          (mkPlaceholders 0 suite.genTests) t.comesAfter hnone
        have hmemkeys : t.comesAfter
            ∈ (suite.resolvedDocs.map
                (fun p => (p.1, DocEntry.resolvedDoc p.2))).map Prod.fst := by
          simpa [List.map_map, Function.comp] using hsetup
        rcases lookupLast_isSome_of_mem _ _ hmemkeys with ⟨v, hv⟩
        have hvmem := lookupLast_mem _ _ _ hv
        rcases List.mem_map.mp hvmem with ⟨p, hp, hpe⟩
        have hvres : v = DocEntry.resolvedDoc p.2 := by
          have := congrArg Prod.snd hpe
          simpa using this.symm
        refine ⟨some p.2, ?_, ?_⟩
        · unfold awaitEntry mkTable
          rw [hlookup0, hv, hvres]
        · intro i2 gi2 _ hgi2 htl _
          exfalso
          apply hdisj (htl ▸ hsetup)
          exact List.mem_map_of_mem (fun g => g.title) (List.get?_mem hgi2)
      · have hi0k : i0 < k := hi0
        have hph := mkPlaceholders_lookup suite.genTests hndgt i0 g0 hg0 0
        have hlook : lookupLast (mkTable suite) t.comesAfter
            = some (.placeholder i0) := by
          unfold mkTable
          rw [ht0] at hph
          have := lookupLast_append_some
            (suite.resolvedDocs.map (fun p => (p.1, DocEntry.resolvedDoc p.2)))
            (mkPlaceholders 0 suite.genTests) t.comesAfter _ hph
          simpa using this
        have hsi0 := hI1 i0 g0 hi0k hg0
        refine ⟨(if hist.get? i0 = some TestResult.passed then some g0.codeLines
                 else none), ?_, ?_⟩
        · unfold awaitEntry
          rw [hlook]
          show (match List.get? store i0 with
                | some (some v) => some v
                | _ => none) = _
          rw [hsi0]
        · intro i2 gi2 hi2 hgi2 htl hnp
          have hieq : i2 = i0 := by
            apply nodup_get?_eq _ hndgt i2 i0 t.comesAfter
            · rw [List.get?_map, hgi2]
              simp [htl]
            · rw [List.get?_map, hg0]
              simp [ht0]
          subst hieq
          rw [if_neg hnp]
    have main : ∀ (r : TestResult) (w : Option (List Str)),
        runTestsAux (mkTable suite) suite.genTests oracle k store (t :: rest)
          = r :: runTestsAux (mkTable suite) suite.genTests oracle (k + 1)
              (store.set k (some w)) rest →
        (w = if r = TestResult.passed then some t.codeLines else none) →
        (r = TestResult.skipped ↔ val = none) →
        ∀ j gj, suite.genTests.get? j = some gj → k ≤ j →
          ∀ i gi, i < j → suite.genTests.get? i = some gi →
            gi.title = gj.comesAfter →
            (hist ++ runTestsAux (mkTable suite) suite.genTests oracle k store
              (t :: rest)).get? i ≠ some TestResult.passed →
            (runTestsAux (mkTable suite) suite.genTests oracle k store
              (t :: rest)).get? (j - k) = some TestResult.skipped := by
      intro r w hrun hw hiff j gj hgj hkj i gi hij hgi htitle hpred
      rw [hrun] at hpred ⊢
      rcases Nat.eq_or_lt_of_le hkj with hjk | hlt
      · -- the offending test is the one being processed
        subst hjk
        have hgjt : gj = t := by
          rw [hgtk] at hgj
          injection hgj with h3
          exact h3.symm
        subst hgjt
        have hik : i < hist.length := by omega
        have hpred' : hist.get? i ≠ some TestResult.passed := by
          rw [List.get?_append hik] at hpred
          exact hpred
        have hvn : val = none := hvalNone i gi (by omega) hgi htitle hpred'
        have hr : r = TestResult.skipped := hiff.mpr hvn
        subst hr
        simp
      · -- the offending test comes later: use the induction hypothesis
        have hI1' : ∀ i2 g', i2 < k + 1 → suite.genTests.get? i2 = some g' →
            (store.set k (some w)).get? i2 = some (some
              (if (hist ++ [r]).get? i2 = some TestResult.passed
               then some g'.codeLines else none)) := by
          intro i2 g2 hi2 hg2
          rcases Nat.lt_or_ge i2 k with hik | hik
          · rw [get?_set_ne store k i2 _ (by omega),
              List.get?_append (by omega)]
            exact hI1 i2 g2 hik hg2
          · have hieq : i2 = k := by omega
            subst hieq
            have hg2t : g2 = t := by
              rw [hgtk] at hg2
              injection hg2 with h3
              exact h3.symm
            subst hg2t
            rw [get?_set_self store i2 _ (by omega)]
            have hhr : (hist ++ [r]).get? i2 = some r := by
              rw [← hh]
              exact List.get?_concat_length hist r
            rw [hhr, hw]
            by_cases hr : r = TestResult.passed
            · simp [hr]
            · simp [hr]
        have hI2' : ∀ i2, k + 1 ≤ i2 → i2 < suite.genTests.length →
            (store.set k (some w)).get? i2 = some none := by
          intro i2 hi2 hi2n
          rw [get?_set_ne store k i2 _ (by omega)]
          exact hI2 i2 (by omega) hi2n
        have hres := ih (k + 1) (store.set k (some w)) (hist ++ [r])
          hdropSucc (by simp [hh]) (by simp [hsl]) hI1' hI2'
          j gj hgj (by omega) i gi hij hgi htitle
          (by
            rw [List.append_assoc, List.singleton_append]
            exact hpred)
        have harith : j - k = (j - (k + 1)) + 1 := by omega
        rw [harith]
        simpa using hres
    cases hvc : val with
    | none =>
      subst hvc
      have hrun : runTestsAux (mkTable suite) suite.genTests oracle k store
          (t :: rest)
          = TestResult.skipped
            :: runTestsAux (mkTable suite) suite.genTests oracle (k + 1)
                (store.set k (some none)) rest := by
        simp only [runTestsAux, hawait]
        rw [notify_set suite.genTests store k t hndgt hgtk hstk]
      exact main TestResult.skipped none hrun (by simp) (by simp)
    | some doc =>
      subst hvc
      by_cases ho : oracle k
      · have hrun : runTestsAux (mkTable suite) suite.genTests oracle k store
            (t :: rest)
            = TestResult.passed
              :: runTestsAux (mkTable suite) suite.genTests oracle (k + 1)
                  (store.set k (some (some t.codeLines))) rest := by
          simp only [runTestsAux, hawait]
          rw [if_pos ho, notify_set suite.genTests store k t hndgt hgtk hstk]
        exact main TestResult.passed (some t.codeLines) hrun (by simp) (by simp)
      · have hrun : runTestsAux (mkTable suite) suite.genTests oracle k store
            (t :: rest)
            = TestResult.failed
              :: runTestsAux (mkTable suite) suite.genTests oracle (k + 1)
                  (store.set k (some none)) rest := by
          simp only [runTestsAux, hawait]
          rw [if_neg ho, notify_set suite.genTests store k t hndgt hgtk hstk]
        exact main TestResult.failed none hrun (by simp) (by simp)

/-- Direct dependency between generated tests: test `j` names test `i`'s
title as its predecessor. -/
def depOn (gts : List GeneratedTest) (j i : Nat) : Prop :=
  ∃ gi gj, gts.get? i = some gi ∧ gts.get? j = some gj
    ∧ gj.comesAfter = gi.title

def cascadeLines : List Str :=
  [("# A".data), ("x".data), ("```".data), ("d0".data), ("```".data),
   ("# X".data), ("[a](#A)".data), ("x".data), ("```".data), ("d1".data), ("```".data),
   ("# X".data), ("[a](#A)".data), ("x".data), ("```".data), ("d2".data), ("```".data),
   ("# Y".data), ("[x](#X)".data), ("x".data), ("```".data), ("d3".data), ("```".data)]

def cascadeOracle : Nat → Bool := fun i => i != 1

/-- C8 counterexample: the parser accepts two transitions sharing the
title `X` (cf. C9); in the generated suite the `documents` entry and
the resolver keyed by `X` both belong to the second `X` test, so the
first `X` test's success settles that promise.  When the second `X`
test then fails, its dependent `Y` still receives a document and runs —
and passes — although its failing predecessor should have made it
skip. -/
theorem c8_cascade_counterexample :
    (parseMarkdownTests cascadeLines).isOk = true
    ∧ (builtSuite cascadeLines).genTests.map (fun g => (g.title, g.comesAfter))
        = [(("X".data), ("A".data)), (("X".data), ("A".data)),
           (("Y".data), ("X".data))]
    ∧ runSuite (builtSuite cascadeLines) cascadeOracle
        = [.passed, .failed, .passed] := by
  decide

/-- C8 (amended): provided all entry titles (initial states and
transitions) are pairwise distinct, every generated test awaits its
predecessor's promise, skips (resolving its own placeholder to
`undefined`) when that promise holds `undefined`, resolves its
placeholder to its target document exactly when it passes — so a failed
or skipped predecessor makes every transitive dependent skip rather
than fail. -/
theorem c8_cascade_amended (ls : List Str) (ini : List InitialDocument)
    (ts : List Test) (suite : Suite) (oracle : Nat → Bool)
    (hparse : parseMarkdownTests ls = .ok (ini, ts))
    (hbuild : buildSuite ini ts = .ok suite)
    (hnodup : (ini.map (fun d => d.title) ++ ts.map (fun t => t.title)).Nodup) :
    ∀ j i, Relation.TransGen (depOn suite.genTests) j i →
      ∀ ri, (runSuite suite oracle).get? i = some ri →
        (ri = TestResult.failed ∨ ri = TestResult.skipped) →
        (runSuite suite oracle).get? j = some TestResult.skipped := by
  have hnd := suite_nodup_keys ls ini ts suite hparse hbuild hnodup
  have hdeps := suite_deps ls ini ts suite hparse hbuild
  have hndgt : (suite.genTests.map (fun g => g.title)).Nodup :=
    (List.nodup_append.mp hnd).2.1
  have hdisj : (suite.resolvedDocs.map Prod.fst).Disjoint
      (suite.genTests.map (fun g => g.title)) :=
    (List.nodup_append.mp hnd).2.2
  have hdirect : ∀ j i gi gj, suite.genTests.get? i = some gi →
      suite.genTests.get? j = some gj → gj.comesAfter = gi.title →
      ∀ ri, (runSuite suite oracle).get? i = some ri →
        ri ≠ TestResult.passed →
        (runSuite suite oracle).get? j = some TestResult.skipped := by
    intro j i gi gj hgi hgj hca ri hri hnp
    have hij : i < j := by
      rcases hdeps j gj hgj with hsetup | ⟨i0, g0, hi0, hg0, ht0⟩
      · exfalso
        apply hdisj (hca ▸ hsetup)
        exact List.mem_map_of_mem _ (List.get?_mem hgi)
      · have hieq : i = i0 := by
          apply nodup_get?_eq _ hndgt i i0 gj.comesAfter
          · rw [List.get?_map, hgi]
            simp [hca]
          · rw [List.get?_map, hg0]
            simp [ht0]
        omega
    have hrun := runCascade suite oracle hnd hdeps suite.genTests 0
      (List.replicate suite.genTests.length none) []
      (by simp) rfl (by simp)
      (by
        intro i2 g2 h2 h3
        exact absurd h2 (Nat.not_lt_zero _))
      (by
        intro i2 h2 h3
        exact get?_replicate none _ i2 h3)
      j gj hgj (Nat.zero_le j) i gi hij hgi hca.symm
      (by
        simp only [List.nil_append]
        show (runSuite suite oracle).get? i ≠ some TestResult.passed
        rw [hri]
        simpa using hnp)
    have hr2 : (runSuite suite oracle).get? (j - 0) = some TestResult.skipped :=
      hrun
    simpa using hr2
  intro j i htg
  induction htg with
  | single hdep =>
    rcases hdep with ⟨gi, gj, hgi, hgj, hca⟩
    intro ri hri hbad
    refine hdirect _ _ gi gj hgi hgj hca ri hri ?_
    rcases hbad with rfl | rfl <;> simp
  | tail htg2 hdep ih2 =>
    rcases hdep with ⟨gi, gb, hgi, hgb, hca⟩
    intro ri hri hbad
    have hb := hdirect _ _ gi gb hgi hgb hca ri hri
      (by rcases hbad with rfl | rfl <;> simp)
    exact ih2 TestResult.skipped hb (Or.inr rfl)

def validLines : List Str :=
  [("# A".data), ("x".data), ("```".data), ("c".data), ("```".data),
   ("# B".data), ("[a](#A)".data), ("x".data), ("```".data), ("c".data), ("```".data),
   ("# C".data), ("[a](#B)".data), ("x".data), ("```".data), ("c".data), ("```".data)]

def failOracle : Nat → Bool := fun _ => false

/-- Witness for the amended C8: with distinct titles, `B` failing makes
its dependent `C` skip. -/
theorem c8_cascade_amended_witness :
    runSuite (builtSuite validLines) failOracle
        = [TestResult.failed, TestResult.skipped]
    ∧ (runSuite (builtSuite validLines) failOracle).get? 1
        = some TestResult.skipped := by
  refine ⟨by decide, ?_⟩
  exact c8_cascade_amended validLines (parsedSetups validLines)
    (parsedTests validLines) (builtSuite validLines) failOracle
    (by decide) (by decide) (by decide)
    1 0
    (Relation.TransGen.single
      ⟨{ title := ("B".data), comesAfter := ("A".data), steps := [],
         codeLines := [("c".data)] },
       { title := ("C".data), comesAfter := ("B".data), steps := [],
         codeLines := [("c".data)] },
       by decide, by decide, by decide⟩)
    TestResult.failed (by decide) (Or.inl rfl)

end Dance
